import Mathlib

/-!
Shallow embedding of `sdnist/utils.py`: the bin-table builder
(`create_bins`), the schema-driven encoder (`discretize`), the decoder
(`undo_discretize`) and the row filter (`df_filter`), together with proofs
about them.

Tables are modelled as association lists of named columns, columns as lists
of cells, and each pandas/numpy elementwise operation as a cell-level
function.  Failures (Python exceptions) are modelled with `Except String`.
-/

/-- A cell of a table: a missing value (`NaN`), a string, a finite rational
number, or one of numpy's infinities. -/
inductive Cell where
  | na : Cell
  | str : String → Cell
  | num : ℚ → Cell
  | pinf : Cell
  | ninf : Cell
deriving DecidableEq

/-- Is the cell a finite number? -/
def Cell.isFinite : Cell → Bool
  | .num _ => true
  | _ => false

/-- Strict order on cut-point cells: `-inf < q < +inf`.  Strings and `NaN`
are not comparable. -/
def cellLt : Cell → Cell → Bool
  | .ninf, .num _ => true
  | .ninf, .pinf => true
  | .num a, .num b => a < b
  | .num _, .pinf => true
  | _, _ => false

/-- Non-strict companion of `cellLt`. -/
def cellLe (a b : Cell) : Bool := cellLt a b || a == b

/-- Index of the half-open bin `[bins[i], bins[i+1])` containing `v`
(`pandas.cut(..., right=False)`); `-1` when no bin contains it. -/
def cutCode (bin : List Cell) (v : Cell) : Int :=
  match (List.range (bin.length - 1)).find? (fun i =>
      cellLe (bin.getD i .na) v && cellLt v (bin.getD (i + 1) .na)) with
  | some i => (i : Int)
  | none => -1

/-- `pandas.cut(..., right=False).cat.codes` on one cell: `NaN` maps to
`-1`, a string is not comparable with the numeric cut points (a
`TypeError`), a number gets the index of its bin. -/
def pdCut (bin : List Cell) (v : Cell) : Except String Cell :=
  match v with
  | .na => .ok (.num (-1))
  | .str _ => .error "TypeError: not supported between instances of str and float"
  | _ => .ok (.num (cutCode bin v))

/-- First position of `v` in `vs`, or `-1` when absent. -/
def idxOf (vs : List Cell) (v : Cell) : Int :=
  match vs with
  | [] => -1
  | x :: xs =>
    if x = v then 0
    else if idxOf xs v < 0 then -1 else idxOf xs v + 1

/-- `astype(CategoricalDtype(values)).cat.codes` on one cell: the position
of the value in `values`, and `-1` for `NaN` or a value outside `values`. -/
def catCode (vs : List Cell) (v : Cell) : Int :=
  match v with
  | .na => -1
  | _ => idxOf vs v

/-- `pandas.to_numeric` on one cell; non-numeric strings fail.  (The
datasets' string cells are category labels, so string-to-number parsing is
not modelled.) -/
def toNumeric : Cell → Except String Cell
  | .str s => .error ("ValueError: Unable to parse string " ++ s)
  | c => .ok c

/-- `Series.replace(old, new)` on one cell. -/
def replaceCell (old new c : Cell) : Cell := if c = old then new else c

/-- Truncation toward zero, as numpy's `astype(int)` on a float
(`Int.div` is T-division, so `num / den` truncates toward zero). -/
def ratTrunc (q : ℚ) : Int := Int.tdiv q.num (q.den : ℤ)

/-- `series - m` on one cell: `NaN` and the infinities absorb. -/
def cellSub (c : Cell) (m : Int) : Cell :=
  match c with
  | .num q => .num (q - (m : ℚ))
  | c => c

/-- `astype(int)` on one cell: fails on `NaN` and on the infinities. -/
def astypeInt : Cell → Except String Cell
  | .num q => .ok (.num ((ratTrunc q : ℤ) : ℚ))
  | _ => .error "ValueError: Cannot convert non-finite values to integer"

/-- `cell + m` (`+= min` in the decoder, `+ 1` on a cut point): adding an
integer to a string fails, `NaN` and the infinities absorb. -/
def cellAddInt (c : Cell) (m : Int) : Except String Cell :=
  match c with
  | .num q => .ok (.num (q + (m : ℚ)))
  | .str _ => .error "TypeError: can only concatenate str (not int) to str"
  | c => .ok c

/-- A numpy fancy index must be an integer. -/
def toCode : Cell → Except String Int
  | .num q => if q.den = 1 then .ok q.num else .error "IndexError: arrays used as indices must be of integer type"
  | _ => .error "IndexError: arrays used as indices must be of integer type"

/-- numpy indexing `arr[i]`: negative indices count from the end, and an
index outside `[-len, len)` is an error. -/
def npIndex (arr : List Cell) (i : Int) : Except String Cell :=
  if 0 ≤ i then
    if i < (arr.length : Int) then .ok (arr.getD i.toNat Cell.na)
    else .error "IndexError: index out of bounds"
  else
    if 0 ≤ (arr.length : Int) + i then .ok (arr.getD ((arr.length : Int) + i).toNat Cell.na)
    else .error "IndexError: index out of bounds"

/-- A per-field bin specification: either a continuous range
`{first_bin_max, last_bin_min, bin_size}` or a time-of-day range
`{bin_type: "time", first_bin_max_hour, last_bin_min_hour,
bin_size_minutes}`. -/
inductive BinSpec where
  | continuous (firstBinMax lastBinMin binSize : ℚ)
  | time (firstBinMaxHour lastBinMinHour : Int) (binSizeMinutes : Nat)

/-- Number of elements of `numpy.arange start stop step` in exact rational
arithmetic: `⌈(stop - start) / step⌉` (numpy raises on a zero step, which
is not modelled). -/
def arangeLen (start stop step : ℚ) : Nat :=
  if step = 0 then 0 else (⌈(stop - start) / step⌉).toNat

/-- `numpy.arange start stop step`: `start + i * step` for
`0 ≤ i < arangeLen start stop step`. -/
def arange (start stop step : ℚ) : List ℚ :=
  (List.range (arangeLen start stop step)).map (fun i : ℕ => start + (i : ℚ) * step)

/-- Python's `range(0, 60, step)` for a positive step (a zero step raises,
which is not modelled). -/
def minuteMarks (step : Nat) : List Nat :=
  if step = 0 then [] else (List.range ((60 + step - 1) / step)).map (· * step)

/-- Python's `range(lo, hi)` over integers. -/
def intRange (lo hi : Int) : List Int :=
  (List.range (hi - lo).toNat).map (fun i : ℕ => lo + (i : Int))

/-- `create_bins` (src/sdnist/utils.py): for each field, a cut-point table
bracketed by `-inf` and `+inf`; continuous specs use `numpy.arange`, time
specs enumerate `hour * 100 + minute` clock values. -/
def create_bins (bins_range : List (String × BinSpec)) : List (String × List Cell) :=
  bins_range.map (fun p =>
    (p.1,
      match p.2 with
      | .continuous fbm lbm bs =>
        Cell.ninf :: (arange fbm lbm bs).map Cell.num ++ [Cell.pinf]
      | .time fbm lbm bs =>
        Cell.ninf ::
          ((intRange fbm lbm).flatMap (fun h =>
            (minuteMarks bs).map (fun m => Cell.num ((h * 100 + (m : ℤ) : ℤ) : ℚ)))) ++
          [Cell.pinf]))

/-- A schema field descriptor.  `values` makes the field categorical,
`min` makes it ordinal-numeric; `null` models the pair
`has_null`/`null_value`, which the code only ever reads together. -/
structure Desc where
  values : Option (List Cell)
  min : Option Int
  null : Option Cell

/-- The body of the per-cell loops: apply `f` to every cell, stopping at
the first failure (a raised exception aborts the whole call). -/
def mapCells (f : Cell → Except String Cell) : List Cell → Except String (List Cell)
  | [] => .ok []
  | c :: cs =>
    match f c with
    | .error e => .error e
    | .ok c' =>
      match mapCells f cs with
      | .error e => .error e
      | .ok cs' => .ok (c' :: cs')

/-- One column of `discretize`: the dispatch of the source (a bin-table
entry first; then a categorical `values` descriptor; then an ordinal `min`
descriptor, with the null sentinel replaced by `min - 1`; otherwise the
column is untouched). -/
def discretizeColumn (schema : List (String × Desc)) (bins : List (String × List Cell))
    (name : String) (col : List Cell) : Except String (List Cell) :=
  match bins.lookup name with
  | some bin =>
    let pre : Except String (List Cell) :=
      match schema.lookup name with
      | some desc =>
        match desc.null with
        | some nv =>
          match desc.min with
          | some m => mapCells toNumeric (col.map (replaceCell nv (.num ((m - 1 : ℤ) : ℚ))))
          | none => .error "KeyError: min"
        | none => .ok col
      | none => .ok col
    match pre with
    | .error e => .error e
    | .ok col' => mapCells (pdCut bin) col'
  | none =>
    match schema.lookup name with
    | some desc =>
      match desc.values with
      | some vs => .ok (col.map (fun c => .num ((catCode vs c : ℤ) : ℚ)))
      | none =>
        match desc.min with
        | some m =>
          let col1 :=
            match desc.null with
            | some nv => col.map (replaceCell nv (.num ((m - 1 : ℤ) : ℚ)))
            | none => col
          match mapCells toNumeric col1 with
          | .error e => .error e
          | .ok col2 => mapCells (fun c => astypeInt (cellSub c m)) col2
        | none => .ok col
    | none => .ok col

/-- The column loop of `discretize`. -/
def discretizeTable (schema : List (String × Desc)) (bins : List (String × List Cell)) :
    List (String × List Cell) → Except String (List (String × List Cell))
  | [] => .ok []
  | (n, col) :: rest =>
    match discretizeColumn schema bins n col with
    | .error e => .error e
    | .ok col' =>
      match discretizeTable schema bins rest with
      | .error e => .error e
      | .ok rest' => .ok ((n, col') :: rest')

/-- `discretize` (src/sdnist/utils.py) on a table given as an association
list of named columns.  The `copy` flag is immaterial in a pure model. -/
def discretize (dataset : List (String × List Cell)) (schema : List (String × Desc))
    (bins_range : List (String × BinSpec)) : Except String (List (String × List Cell)) :=
  discretizeTable schema (create_bins bins_range) dataset

/-- The `handle_inf` transformation of one cut-point table:
`bins[col][-1] = bin[-2] + 1` (fails when there are fewer than two cut
points, as the `bin[-2]` access does). -/
def adjustBin (bin : List Cell) : Except String (List Cell) :=
  if 2 ≤ bin.length then
    match cellAddInt (bin.getD (bin.length - 2) Cell.na) 1 with
    | .error e => .error e
    | .ok last => .ok (bin.dropLast ++ [last])
  else .error "IndexError: index -2 is out of bounds for axis 0"

/-- The `handle_inf` loop over the whole bin table. -/
def adjustTable : List (String × List Cell) → Except String (List (String × List Cell))
  | [] => .ok []
  | (n, bin) :: rest =>
    match adjustBin bin with
    | .error e => .error e
    | .ok bin' =>
      match adjustTable rest with
      | .error e => .error e
      | .ok rest' => .ok ((n, bin') :: rest')

/-- One column of `undo_discretize`: a binned column is decoded by numpy
indexing `bin[codes]`, a categorical one by `np.array(values)[codes]`, an
ordinal one by `+= min`; a column in the schema with neither `values` nor
`min` raises `ValueError`, and a column known to neither bins nor schema is
untouched. -/
def undoColumn (schema : List (String × Desc)) (bins : List (String × List Cell))
    (name : String) (col : List Cell) : Except String (List Cell) :=
  match bins.lookup name with
  | some bin =>
    mapCells (fun c =>
      match toCode c with
      | .error e => .error e
      | .ok i => npIndex bin i) col
  | none =>
    match schema.lookup name with
    | some desc =>
      match desc.values with
      | some vs =>
        mapCells (fun c =>
          match toCode c with
          | .error e => .error e
          | .ok i => npIndex vs i) col
      | none =>
        match desc.min with
        | some m => mapCells (fun c => cellAddInt c m) col
        | none => .error "ValueError: Unknown column, probably due to invalid schema"
    | none => .ok col

/-- The column loop of `undo_discretize`. -/
def undoTable (schema : List (String × Desc)) (bins : List (String × List Cell)) :
    List (String × List Cell) → Except String (List (String × List Cell))
  | [] => .ok []
  | (n, col) :: rest =>
    match undoColumn schema bins n col with
    | .error e => .error e
    | .ok col' =>
      match undoTable schema bins rest with
      | .error e => .error e
      | .ok rest' => .ok ((n, col') :: rest')

/-- `undo_discretize` (src/sdnist/utils.py): when `handle_inf` is set the
last cut point of every bin table is first replaced by the second-to-last
plus one, then each column is decoded per `undoColumn`. -/
def undo_discretize (dataset : List (String × List Cell)) (schema : List (String × Desc))
    (bins : List (String × List Cell)) (handle_inf : Bool) :
    Except String (List (String × List Cell)) :=
  match (if handle_inf then adjustTable bins else .ok bins) with
  | .error e => .error e
  | .ok bins' => undoTable schema bins' dataset

/-- A row of a data frame: named cells; a missing field reads as `NaN`. -/
abbrev Row := List (String × Cell)

/-- `row[feature]`. -/
def rowGet (r : Row) (f : String) : Cell := (r.lookup f).getD Cell.na

/-- Does the row satisfy the constraint (feature, allowed values)?
(`data[feature].isin(values)`) -/
def rowSat (r : Row) (p : String × List Cell) : Bool := p.2.contains (rowGet r p.1)

/-- `df_filter` (src/sdnist/utils.py): `None` or an empty filter list
returns the input; otherwise each (feature, values) constraint keeps the
rows whose feature value is in the allowed list. -/
def df_filter (data : List Row) (filters : Option (List (String × List Cell))) :
    List Row :=
  match filters with
  | none => data
  | some fs =>
    if fs.isEmpty then data
    else fs.foldl (fun d p => d.filter (fun r => rowSat r p)) data

deriving instance DecidableEq for Except

/-! ### Helper lemmas -/

theorem Cell.isFinite_iff {c : Cell} : c.isFinite = true ↔ ∃ q : ℚ, c = Cell.num q := by
  cases c <;> simp [Cell.isFinite]

theorem toCode_intCast (k : ℤ) : toCode (Cell.num (k : ℚ)) = .ok k := by
  simp [toCode]

theorem toCode_neg_one : toCode (Cell.num (-1)) = .ok (-1) := by
  have h : ((-1 : ℤ) : ℚ) = -1 := by norm_num
  rw [← h]
  exact toCode_intCast (-1)

theorem npIndex_nonneg {arr : List Cell} {i : ℤ} (h0 : 0 ≤ i) (hlt : i < (arr.length : ℤ)) :
    npIndex arr i = .ok (arr.getD i.toNat Cell.na) := by
  simp [npIndex, h0, hlt]

theorem npIndex_neg_one {arr : List Cell} (h : arr ≠ []) :
    npIndex arr (-1) = .ok (arr.getD (arr.length - 1) Cell.na) := by
  have hlen : 0 < arr.length := List.length_pos.mpr h
  have h1 : ¬ (0 ≤ (-1 : ℤ)) := by norm_num
  have h2 : 0 ≤ (arr.length : ℤ) + (-1) := by omega
  have h3 : ((arr.length : ℤ) + (-1)).toNat = arr.length - 1 := by omega
  simp [npIndex, h1, h2, h3]

theorem mapCells_singleton {f : Cell → Except String Cell} {c c' : Cell} (h : f c = .ok c') :
    mapCells f [c] = .ok [c'] := by simp [mapCells, h]

theorem mapCells_ok_of {f : Cell → Except String Cell} {g : Cell → Cell} :
    ∀ {l : List Cell}, (∀ c ∈ l, f c = .ok (g c)) → mapCells f l = .ok (l.map g) := by
  intro l
  induction l with
  | nil => intro _; rfl
  | cons c cs ih =>
    intro h
    have hc := h c (List.mem_cons_self c cs)
    have hcs := ih (fun x hx => h x (List.mem_cons_of_mem c hx))
    simp [mapCells, hc, hcs]

theorem adjustTable_lookup_none {n : String} :
    ∀ {bins bins' : List (String × List Cell)}, adjustTable bins = .ok bins' →
      List.lookup n bins = none → List.lookup n bins' = none := by
  intro bins
  induction bins with
  | nil =>
    intro bins' h hn
    cases h
    simp
  | cons p rest ih =>
    intro bins' h hn
    obtain ⟨m, b⟩ := p
    rw [List.lookup_cons] at hn
    simp only [adjustTable] at h
    cases hb : adjustBin b with
    | error e => rw [hb] at h; cases h
    | ok b' =>
      rw [hb] at h
      cases hr : adjustTable rest with
      | error e => rw [hr] at h; cases h
      | ok rest' =>
        rw [hr] at h
        cases h
        rw [List.lookup_cons]
        cases hnm : (n == m) with
        | true => rw [hnm] at hn; cases hn
        | false =>
          rw [hnm] at hn
          simp only [hnm]
          exact ih hr hn

theorem undoTable_ok_getElem? {schema : List (String × Desc)}
    {bins : List (String × List Cell)} :
    ∀ {ds out : List (String × List Cell)}, undoTable schema bins ds = .ok out →
      ∀ {i : ℕ} {n : String} {col : List Cell}, ds[i]? = some (n, col) →
        ∃ col', undoColumn schema bins n col = .ok col' ∧ out[i]? = some (n, col') := by
  intro ds
  induction ds with
  | nil =>
    intro out h i n col hi
    simp at hi
  | cons p rest ih =>
    intro out h i n col hi
    obtain ⟨m, b⟩ := p
    simp only [undoTable] at h
    cases hb : undoColumn schema bins m b with
    | error e => rw [hb] at h; cases h
    | ok b' =>
      rw [hb] at h
      cases hr : undoTable schema bins rest with
      | error e => rw [hr] at h; cases h
      | ok rest' =>
        rw [hr] at h
        cases h
        cases i with
        | zero =>
          simp at hi
          obtain ⟨h1, h2⟩ := hi
          subst h1; subst h2
          exact ⟨b', hb, by simp⟩
        | succ j =>
          simp at hi
          obtain ⟨col', hcol', hout⟩ := ih hr hi
          exact ⟨col', hcol', by simpa using hout⟩

theorem undoTable_ok_of_mem {schema : List (String × Desc)}
    {bins : List (String × List Cell)} {ds out : List (String × List Cell)}
    (h : undoTable schema bins ds = .ok out) {n : String} {col : List Cell}
    (hm : (n, col) ∈ ds) : ∃ col', undoColumn schema bins n col = .ok col' := by
  obtain ⟨i, hi⟩ := List.mem_iff_getElem?.mp hm
  obtain ⟨col', hcol', _⟩ := undoTable_ok_getElem? h hi
  exact ⟨col', hcol'⟩

/-! ### C1: decoding a column absent from both bin table and schema -/

/-- C1 counterexample: decoding a table whose only column is unknown to
both the bin table and the schema returns normally with the column as-is;
no Schema Mismatch failure is raised, contrary to the claim. -/
theorem C1_counterexample :
    undo_discretize [("mystery", [Cell.num 5])] [] [] true
      = .ok [("mystery", [Cell.num 5])] := rfl

/-- C1 (amended): a column of the coded table that is absent from both the
bin table and the schema is left unchanged whenever `undo_discretize`
returns; the Schema Mismatch `ValueError` is instead raised for in-schema
descriptors with neither `values` nor `min`. -/
theorem C1_amended {dataset schema bins out : List _} {hinf : Bool} {i : ℕ}
    {n : String} {col : List Cell}
    (h : undo_discretize dataset schema bins hinf = .ok out)
    (hi : dataset[i]? = some (n, col))
    (hb : List.lookup n bins = none)
    (hs : List.lookup n schema = none) :
    out[i]? = some (n, col) := by
  simp only [undo_discretize] at h
  cases hinf with
  | false =>
    simp only [Bool.false_eq_true, if_false] at h
    obtain ⟨col', hcol', hout⟩ := undoTable_ok_getElem? h hi
    simp only [undoColumn, hb, hs, Except.ok.injEq] at hcol'
    subst hcol'
    exact hout
  | true =>
    simp only [if_true] at h
    cases hadj : adjustTable bins with
    | error e => rw [hadj] at h; cases h
    | ok bins' =>
      rw [hadj] at h
      obtain ⟨col', hcol', hout⟩ := undoTable_ok_getElem? h hi
      simp only [undoColumn, adjustTable_lookup_none hadj hb, hs, Except.ok.injEq] at hcol'
      subst hcol'
      exact hout

/-- C1 witness: the amended theorem applied to a one-column table unknown
to both bin table and schema. -/
theorem C1_witness :
    undo_discretize [("mystery", [Cell.num 7])] [] [] true
        = .ok [("mystery", [Cell.num 7])]
    ∧ [("mystery", [Cell.num 7])][0]? = some ("mystery", [Cell.num 7]) :=
  ⟨rfl,
    C1_amended
      (show undo_discretize [("mystery", [Cell.num 7])] [] [] true
          = .ok [("mystery", [Cell.num 7])] from rfl)
      rfl rfl rfl⟩

/-! ### C2: null-sentinel round trip for ordinal fields -/

/-- C2 (code bug evaluation): with schema
`{"age": {"min": 0, "has_null": true, "null_value": -9}}` and no bin entry,
encoding the null sentinel `-9` yields code `-1`, but decoding `-1` adds
`min` back and yields `-1` (that is, `min - 1`), not the null sentinel
`-9`: the decoder never re-substitutes the null value. -/
theorem C2_null_roundtrip_eval :
    discretize [("age", [Cell.num (-9)])] [("age", ⟨none, some 0, some (Cell.num (-9))⟩)] []
        = .ok [("age", [Cell.num (-1)])]
    ∧ undo_discretize [("age", [Cell.num (-1)])]
        [("age", ⟨none, some 0, some (Cell.num (-9))⟩)] [] true
        = .ok [("age", [Cell.num (-1)])]
    ∧ Cell.num (-1) ≠ Cell.num (-9) := by
  refine ⟨?_, ?_, by decide⟩
  · norm_num [discretize, discretizeTable, discretizeColumn, create_bins, mapCells, toNumeric,
      replaceCell, astypeInt, cellSub, ratTrunc, List.lookup]
  · norm_num [undo_discretize, adjustTable, undoTable, undoColumn, mapCells, cellAddInt,
      List.lookup]

/-! ### C4: decoding an in-schema passthrough descriptor -/

/-- C4 counterexample: a column present in the schema whose descriptor has
neither `values` nor `min` makes `undo_discretize` raise the `ValueError`,
instead of being left unchanged as the claim states. -/
theorem C4_counterexample :
    undo_discretize [("id", [Cell.num 3])] [("id", ⟨none, none, none⟩)] [] true
      = .error "ValueError: Unknown column, probably due to invalid schema" := rfl

/-- C4 (amended): whenever the coded table contains a column that has no
bin entry and whose schema descriptor has neither `values` nor `min`,
`undo_discretize` never returns normally: the `ValueError` surfaces to the
caller. -/
theorem C4_amended {dataset schema bins out : List _} {hinf : Bool}
    {n : String} {col : List Cell} {desc : Desc}
    (hmem : (n, col) ∈ dataset)
    (hb : List.lookup n bins = none)
    (hs : List.lookup n schema = some desc)
    (hv : desc.values = none) (hm : desc.min = none) :
    undo_discretize dataset schema bins hinf ≠ .ok out := by
  intro h
  simp only [undo_discretize] at h
  cases hinf with
  | false =>
    simp only [Bool.false_eq_true, if_false] at h
    obtain ⟨col', hcol'⟩ := undoTable_ok_of_mem h hmem
    simp only [undoColumn, hb, hs, hv, hm] at hcol'
    cases hcol'
  | true =>
    simp only [if_true] at h
    cases hadj : adjustTable bins with
    | error e => rw [hadj] at h; cases h
    | ok bins' =>
      rw [hadj] at h
      obtain ⟨col', hcol'⟩ := undoTable_ok_of_mem h hmem
      simp only [undoColumn, adjustTable_lookup_none hadj hb, hs, hv, hm] at hcol'
      cases hcol'

/-- C4 witness: the amended theorem applied to a concrete identifier
column. -/
theorem C4_witness :
    undo_discretize [("id", [Cell.num 3])] [("id", ⟨none, none, none⟩)] [] true
      ≠ .ok [("id", [Cell.num 3])] :=
  C4_amended (List.mem_singleton.mpr rfl) rfl rfl rfl rfl

/-! ### C5: the worked time-bin example -/

/-- C5 counterexample: with the time bin specification of the claim, the
raw value `45` encodes to code `2` (the interval `[30, 100)` is the third
half-open interval of the cut sequence), not to code `1` as claimed. -/
theorem C5_counterexample :
    discretize [("hour", [Cell.num 45])] [] [("hour", .time 0 2 30)]
        = .ok [("hour", [Cell.num 2])]
    ∧ discretize [("hour", [Cell.num 45])] [] [("hour", .time 0 2 30)]
        ≠ .ok [("hour", [Cell.num 1])] := by
  exact ⟨by decide, by decide⟩

/-- C5 (amended): the bin specification
`{"hour": {"bin_type":"time","first_bin_max_hour":0,"last_bin_min_hour":2,
"bin_size_minutes":30}}` yields the bin table
`[-inf, 0, 30, 100, 130, +inf]`; raw value `45` encodes to code `2` (the
bin `[30,100)`); and decoding code `0` yields `-inf`, the lower edge of the
first interval `[-inf, 0)` (the `handle_inf` transformation only replaces
the last cut point). -/
theorem C5_amended :
    create_bins [("hour", .time 0 2 30)]
        = [("hour", [Cell.ninf, Cell.num 0, Cell.num 30, Cell.num 100, Cell.num 130,
            Cell.pinf])]
    ∧ discretize [("hour", [Cell.num 45])] [] [("hour", .time 0 2 30)]
        = .ok [("hour", [Cell.num 2])]
    ∧ undo_discretize [("hour", [Cell.num 0])] [] (create_bins [("hour", .time 0 2 30)]) true
        = .ok [("hour", [Cell.ninf])] := by
  exact ⟨by decide, by decide, by decide⟩

/-! ### Categorical code lemmas -/

theorem idxOf_spec : ∀ {vs : List Cell} {v : Cell}, v ∈ vs →
    0 ≤ idxOf vs v ∧ idxOf vs v < (vs.length : ℤ) ∧ vs[(idxOf vs v).toNat]? = some v := by
  intro vs
  induction vs with
  | nil => intro v hv; cases hv
  | cons x xs ih =>
    intro v hv
    by_cases hx : x = v
    · subst hx
      have hval0 : idxOf (x :: xs) x = 0 := by simp [idxOf]
      refine ⟨by simp [hval0], ?_, by simp [hval0]⟩
      rw [hval0]
      simp only [List.length_cons]
      omega
    · have hvx : v ∈ xs := by
        cases hv with
        | head => exact absurd rfl hx
        | tail _ h => exact h
      obtain ⟨h0, hlt, hget⟩ := ih hvx
      have hnn : ¬ (idxOf xs v < 0) := not_lt.mpr h0
      have hval : idxOf (x :: xs) v = idxOf xs v + 1 := by
        simp [idxOf, hx, hnn]
      refine ⟨by omega, ?_, ?_⟩
      · rw [hval]
        simp only [List.length_cons]
        push_cast
        omega
      · rw [hval]
        have ht : (idxOf xs v + 1).toNat = (idxOf xs v).toNat + 1 := by omega
        rw [ht, List.getElem?_cons_succ]
        exact hget

theorem idxOf_eq_neg_one_of_not_mem : ∀ {vs : List Cell} {v : Cell}, v ∉ vs →
    idxOf vs v = -1 := by
  intro vs
  induction vs with
  | nil => intro v _; rfl
  | cons x xs ih =>
    intro v hv
    have hx : ¬ (x = v) := fun h => hv (h ▸ List.mem_cons_self x xs)
    have hxs : v ∉ xs := fun h => hv (List.mem_cons_of_mem x h)
    simp [idxOf, hx, ih hxs]

theorem catCode_of_mem {vs : List Cell} {v : Cell} (hna : Cell.na ∉ vs) (hv : v ∈ vs) :
    catCode vs v = idxOf vs v := by
  cases v with
  | na => exact absurd hv hna
  | str s => rfl
  | num q => rfl
  | pinf => rfl
  | ninf => rfl

theorem catCode_of_not_mem {vs : List Cell} {v : Cell} (hv : v ∉ vs) :
    catCode vs v = -1 := by
  cases v with
  | na => rfl
  | str s => exact idxOf_eq_neg_one_of_not_mem hv
  | num q => exact idxOf_eq_neg_one_of_not_mem hv
  | pinf => exact idxOf_eq_neg_one_of_not_mem hv
  | ninf => exact idxOf_eq_neg_one_of_not_mem hv

/-! ### C8: categorical round trip for declared values -/

/-- C8: for every categorical field (descriptor with a `values` sequence,
no bin entry) and every raw value in the declared `values` sequence,
decoding the encoding reproduces the value: `decode(encode(v)) = v`. -/
theorem C8_categorical_roundtrip (n : String) (vs : List Cell) (v : Cell)
    (hna : Cell.na ∉ vs) (hv : v ∈ vs) :
    (discretize [(n, [v])] [(n, ⟨some vs, none, none⟩)] []).bind
        (fun d => undo_discretize d [(n, ⟨some vs, none, none⟩)] [] true)
      = .ok [(n, [v])] := by
  obtain ⟨h0, hlt, hget⟩ := idxOf_spec hv
  have hcat : catCode vs v = idxOf vs v := catCode_of_mem hna hv
  have henc : discretize [(n, [v])] [(n, ⟨some vs, none, none⟩)] []
      = .ok [(n, [Cell.num ((idxOf vs v : ℤ) : ℚ)])] := by
    simp [discretize, discretizeTable, discretizeColumn, create_bins, hcat]
  have hnp : npIndex vs (idxOf vs v) = .ok v := by
    rw [npIndex_nonneg h0 hlt]
    simp [hget]
  have hmap : mapCells (fun c =>
      match toCode c with
      | Except.error e => Except.error e
      | Except.ok i => npIndex vs i) [Cell.num ((idxOf vs v : ℤ) : ℚ)] = .ok [v] := by
    simp [mapCells, toCode_intCast, hnp]
  have hdec : undo_discretize [(n, [Cell.num ((idxOf vs v : ℤ) : ℚ)])]
      [(n, ⟨some vs, none, none⟩)] [] true = .ok [(n, [v])] := by
    simp [undo_discretize, adjustTable, undoTable, undoColumn, hmap]
  rw [henc]
  simpa [Except.bind] using hdec

/-- C8 witness: the round trip at a concrete categorical column. -/
theorem C8_witness :
    Cell.na ∉ [Cell.str "a", Cell.str "b"]
    ∧ Cell.str "b" ∈ [Cell.str "a", Cell.str "b"]
    ∧ (discretize [("c", [Cell.str "b"])]
          [("c", ⟨some [Cell.str "a", Cell.str "b"], none, none⟩)] []).bind
        (fun d => undo_discretize d
          [("c", ⟨some [Cell.str "a", Cell.str "b"], none, none⟩)] [] true)
      = .ok [("c", [Cell.str "b"])] :=
  ⟨by decide, by decide,
    C8_categorical_roundtrip "c" [Cell.str "a", Cell.str "b"] (Cell.str "b")
      (by decide) (by decide)⟩

/-! ### C3: unmapped category values -/

/-- C3 counterexample: with `values = ["a", "b"]`, the unmapped raw value
`"z"` encodes to `-1` (first half of the claim), but decoding code `-1`
yields `"b"` — the last element of `values`, hence a value from `values` —
because numpy's negative indexing wraps around; the unmapped marker is not
reproduced. -/
theorem C3_counterexample :
    discretize [("c", [Cell.str "z"])]
        [("c", ⟨some [Cell.str "a", Cell.str "b"], none, none⟩)] []
      = .ok [("c", [Cell.num (-1)])]
    ∧ undo_discretize [("c", [Cell.num (-1)])]
        [("c", ⟨some [Cell.str "a", Cell.str "b"], none, none⟩)] [] true
      = .ok [("c", [Cell.str "b"])]
    ∧ Cell.str "b" ∈ [Cell.str "a", Cell.str "b"] :=
  ⟨by decide, by decide, by decide⟩

/-- C3 (amended): a raw value absent from the declared `values` sequence
encodes to the sentinel code `-1`, but decoding code `-1` yields the last
element of `values` (numpy negative indexing), not an unmapped marker. -/
theorem C3_amended (n : String) (vs : List Cell) (v : Cell)
    (hv : v ∉ vs) (hne : vs ≠ []) :
    discretize [(n, [v])] [(n, ⟨some vs, none, none⟩)] []
      = .ok [(n, [Cell.num (-1)])]
    ∧ undo_discretize [(n, [Cell.num (-1)])] [(n, ⟨some vs, none, none⟩)] [] true
      = .ok [(n, [vs.getD (vs.length - 1) Cell.na])] := by
  constructor
  · have hcat : catCode vs v = -1 := catCode_of_not_mem hv
    simp [discretize, discretizeTable, discretizeColumn, create_bins, hcat]
  · have hmap : mapCells (fun c =>
        match toCode c with
        | Except.error e => Except.error e
        | Except.ok i => npIndex vs i) [Cell.num (-1)]
        = .ok [vs.getD (vs.length - 1) Cell.na] := by
      simp [mapCells, toCode_neg_one, npIndex_neg_one hne]
    simp [undo_discretize, adjustTable, undoTable, undoColumn, hmap]

/-- C3 witness: the amended theorem at a concrete categorical column. -/
theorem C3_witness :
    Cell.str "z" ∉ [Cell.str "a", Cell.str "b"]
    ∧ discretize [("cw", [Cell.str "z"])]
        [("cw", ⟨some [Cell.str "a", Cell.str "b"], none, none⟩)] []
      = .ok [("cw", [Cell.num (-1)])]
    ∧ undo_discretize [("cw", [Cell.num (-1)])]
        [("cw", ⟨some [Cell.str "a", Cell.str "b"], none, none⟩)] [] true
      = .ok [("cw", [Cell.str "b"])] :=
  ⟨by decide,
    (C3_amended "cw" [Cell.str "a", Cell.str "b"] (Cell.str "z")
      (by decide) (by decide)).1,
    (C3_amended "cw" [Cell.str "a", Cell.str "b"] (Cell.str "z")
      (by decide) (by decide)).2⟩

/-! ### Adjusted-bin-table lemmas (`handle_inf`) -/

theorem adjustBin_ok_of_num {bin : List Cell} {q : ℚ}
    (h2 : 2 ≤ bin.length) (hq : bin.getD (bin.length - 2) Cell.na = Cell.num q) :
    adjustBin bin = .ok (bin.dropLast ++ [Cell.num (q + 1)]) := by
  rw [adjustBin, if_pos h2, hq]
  simp [cellAddInt]

theorem length_adjusted (bin : List Cell) (h : 1 ≤ bin.length) (x : Cell) :
    (bin.dropLast ++ [x]).length = bin.length := by
  simp only [List.length_append, List.length_dropLast, List.length_singleton]
  omega

theorem getD_adjusted_last (bin : List Cell) (_h : 1 ≤ bin.length) (x : Cell) :
    (bin.dropLast ++ [x]).getD (bin.length - 1) Cell.na = x := by
  simp only [List.getD_eq_getElem?_getD]
  rw [List.getElem?_append_right (by simp only [List.length_dropLast]; omega)]
  simp [List.length_dropLast]

theorem getD_adjusted_of_lt (bin : List Cell) {i : ℕ} (h : i < bin.length - 1) (x : Cell) :
    (bin.dropLast ++ [x]).getD i Cell.na = bin.getD i Cell.na := by
  simp only [List.getD_eq_getElem?_getD]
  rw [List.getElem?_append_left (by simp only [List.length_dropLast]; omega),
    List.getElem?_dropLast, if_pos h]

theorem undoColumn_bins_singleton {n : String} {bin col col' : List Cell}
    (h : mapCells (fun c =>
        match toCode c with
        | Except.error e => Except.error e
        | Except.ok i => npIndex bin i) col = .ok col') :
    undoColumn [] [(n, bin)] n col = .ok col' := by
  simp [undoColumn, h]

theorem undo_single_true {n : String} {bin bin' col col' : List Cell}
    (h1 : adjustBin bin = .ok bin')
    (h2 : undoColumn [] [(n, bin')] n col = .ok col') :
    undo_discretize [(n, col)] [] [(n, bin)] true = .ok [(n, col')] := by
  simp [undo_discretize, adjustTable, undoTable, h1, h2]

theorem undo_single_false {n : String} {bin col col' : List Cell}
    (h2 : undoColumn [] [(n, bin)] n col = .ok col') :
    undo_discretize [(n, col)] [] [(n, bin)] false = .ok [(n, col')] := by
  simp [undo_discretize, undoTable, h2]

/-! ### C10: decoding the sentinel code -1 on a binned column -/

/-- C10 counterexample: on the degenerate bin table `[-inf, +inf]` (which
`create_bins` produces for an empty interior, e.g. `first_bin_max =
last_bin_min = 0`), decoding code `-1` with `handle_inf` yields
`-inf + 1 = -inf`, which is not a finite value, contrary to the claim's
parenthetical. -/
theorem C10_counterexample :
    undo_discretize [("x", [Cell.num (-1)])] [] [("x", [Cell.ninf, Cell.pinf])] true
      = .ok [("x", [Cell.ninf])]
    ∧ Cell.isFinite Cell.ninf = false
    ∧ create_bins [("x", .continuous 0 0 1)] = [("x", [Cell.ninf, Cell.pinf])] := by
  refine ⟨by decide, by decide, ?_⟩
  have hlen : arangeLen 0 0 1 = 0 := by
    rw [arangeLen, if_neg (by norm_num)]
    norm_num
  simp [create_bins, arange, hlen]

/-- C10 (amended): decoding code `-1` on a binned column is total: with
`handle_inf` it yields the second-to-last cut point plus one — a finite
value whenever the second-to-last cut point is finite, which holds for
every bin table with an interior point but fails for the degenerate
`[-inf, +inf]` table — and without `handle_inf` it yields the last cut
point, `+inf`; neither setting restores a missing value. -/
theorem C10_amended (bin : List Cell) (q : ℚ)
    (h2 : 2 ≤ bin.length)
    (hq : bin.getD (bin.length - 2) Cell.na = Cell.num q)
    (hl : bin.getD (bin.length - 1) Cell.na = Cell.pinf) :
    undo_discretize [("x", [Cell.num (-1)])] [] [("x", bin)] true
        = .ok [("x", [Cell.num (q + 1)])]
    ∧ undo_discretize [("x", [Cell.num (-1)])] [] [("x", bin)] false
        = .ok [("x", [Cell.pinf])]
    ∧ Cell.num (q + 1) ≠ Cell.na ∧ Cell.pinf ≠ Cell.na := by
  have hne : bin ≠ [] := by
    intro h
    rw [h] at h2
    simp at h2
  have hadj := adjustBin_ok_of_num h2 hq
  have hne' : bin.dropLast ++ [Cell.num (q + 1)] ≠ [] := by simp
  have hlen' := length_adjusted bin (by omega) (Cell.num (q + 1))
  refine ⟨?_, ?_, ?_, ?_⟩
  · have hnp : npIndex (bin.dropLast ++ [Cell.num (q + 1)]) (-1)
        = .ok (Cell.num (q + 1)) := by
      rw [npIndex_neg_one hne', hlen', getD_adjusted_last bin (by omega)]
    have hmap : mapCells (fun c =>
        match toCode c with
        | Except.error e => Except.error e
        | Except.ok i => npIndex (bin.dropLast ++ [Cell.num (q + 1)]) i)
        [Cell.num (-1)] = .ok [Cell.num (q + 1)] := by
      simp [mapCells, toCode_neg_one, hnp]
    exact undo_single_true hadj (undoColumn_bins_singleton hmap)
  · have hnp2 : npIndex bin (-1) = .ok Cell.pinf := by
      rw [npIndex_neg_one hne, hl]
    have hmap2 : mapCells (fun c =>
        match toCode c with
        | Except.error e => Except.error e
        | Except.ok i => npIndex bin i)
        [Cell.num (-1)] = .ok [Cell.pinf] := by
      simp [mapCells, toCode_neg_one, hnp2]
    exact undo_single_false (undoColumn_bins_singleton hmap2)
  · intro hcontra
    cases hcontra
  · intro hcontra
    cases hcontra

/-- C10 witness: the amended theorem at the concrete bin table
`[-inf, 5, +inf]`. -/
theorem C10_witness :
    undo_discretize [("x", [Cell.num (-1)])] [] [("x", [Cell.ninf, Cell.num 5, Cell.pinf])] true
        = .ok [("x", [Cell.num (5 + 1)])]
    ∧ undo_discretize [("x", [Cell.num (-1)])] [] [("x", [Cell.ninf, Cell.num 5, Cell.pinf])] false
        = .ok [("x", [Cell.pinf])]
    ∧ Cell.num ((5 : ℚ) + 1) ≠ Cell.na ∧ Cell.pinf ≠ Cell.na :=
  C10_amended [Cell.ninf, Cell.num 5, Cell.pinf] 5 (by decide) rfl rfl

/-! ### C6: finiteness of decoded values under handle_inf -/

/-- C6 counterexample: the raw value `-5` encodes to code `0` (the bin
`[-inf, 0)`), and decoding code `0` with `handle_inf` yields `-inf`: the
`handle_inf` substitution only replaces the last cut point, so an infinite
value does appear in the decoded output. -/
theorem C6_counterexample :
    discretizeColumn [] [("x", [Cell.ninf, Cell.num 0, Cell.pinf])] "x" [Cell.num (-5)]
      = .ok [Cell.num 0]
    ∧ undo_discretize [("x", [Cell.num 0])] [] [("x", [Cell.ninf, Cell.num 0, Cell.pinf])] true
      = .ok [("x", [Cell.ninf])]
    ∧ Cell.isFinite Cell.ninf = false :=
  ⟨by decide, by decide, by decide⟩

/-- C6 (amended): with `handle_inf`, decoding yields a finite value for
every code the encoder can produce except `0`: codes `1 ≤ c ≤ len - 2`
index finite interior cut points, and code `-1` indexes the substituted
finite proxy `secondToLast + 1` (for a table with at least one interior
point); code `0`, however, still decodes to the first cut point `-inf`. -/
theorem C6_amended (bin : List Cell) (c : ℤ)
    (hfin : ∀ i : ℕ, 0 < i → i < bin.length - 1 → (bin.getD i Cell.na).isFinite = true)
    (hc : (1 ≤ c ∧ c ≤ (bin.length : ℤ) - 2) ∨ (c = -1 ∧ 3 ≤ bin.length)) :
    ∃ q : ℚ, undo_discretize [("x", [Cell.num (c : ℚ)])] [] [("x", bin)] true
      = .ok [("x", [Cell.num q])] := by
  have h3 : 3 ≤ bin.length := by
    rcases hc with ⟨h1, hle⟩ | ⟨_, h3⟩
    · omega
    · exact h3
  obtain ⟨q2, hq2⟩ := Cell.isFinite_iff.mp (hfin (bin.length - 2) (by omega) (by omega))
  have hadj := adjustBin_ok_of_num (by omega) hq2
  have hlen' := length_adjusted bin (by omega) (Cell.num (q2 + 1))
  rcases hc with ⟨hc1, hc2⟩ | ⟨hceq, _⟩
  · obtain ⟨q, hq⟩ := Cell.isFinite_iff.mp (hfin c.toNat (by omega) (by omega))
    have hget : (bin.dropLast ++ [Cell.num (q2 + 1)]).getD c.toNat Cell.na = Cell.num q := by
      rw [getD_adjusted_of_lt bin (by omega), hq]
    have hlt' : c < ((bin.dropLast ++ [Cell.num (q2 + 1)]).length : ℤ) := by
      rw [hlen']
      omega
    have hnp : npIndex (bin.dropLast ++ [Cell.num (q2 + 1)]) c = .ok (Cell.num q) := by
      rw [npIndex_nonneg (by omega) hlt', hget]
    have hmap : mapCells (fun x =>
        match toCode x with
        | Except.error e => Except.error e
        | Except.ok i => npIndex (bin.dropLast ++ [Cell.num (q2 + 1)]) i)
        [Cell.num (c : ℚ)] = .ok [Cell.num q] := by
      simp [mapCells, toCode_intCast, hnp]
    exact ⟨q, undo_single_true hadj (undoColumn_bins_singleton hmap)⟩
  · subst hceq
    have hne' : bin.dropLast ++ [Cell.num (q2 + 1)] ≠ [] := by simp
    have hnp : npIndex (bin.dropLast ++ [Cell.num (q2 + 1)]) (-1)
        = .ok (Cell.num (q2 + 1)) := by
      rw [npIndex_neg_one hne', hlen', getD_adjusted_last bin (by omega)]
    have hmap : mapCells (fun x =>
        match toCode x with
        | Except.error e => Except.error e
        | Except.ok i => npIndex (bin.dropLast ++ [Cell.num (q2 + 1)]) i)
        [Cell.num ((-1 : ℤ) : ℚ)] = .ok [Cell.num (q2 + 1)] := by
      simp [mapCells, toCode_neg_one, hnp]
    exact ⟨q2 + 1, undo_single_true hadj (undoColumn_bins_singleton hmap)⟩

/-- C6 witness: the amended theorem at the bin table `[-inf, 0, +inf]`
with code `1`. -/
theorem C6_witness :
    ∃ q : ℚ, undo_discretize [("x", [Cell.num ((1 : ℤ) : ℚ)])] []
        [("x", [Cell.ninf, Cell.num 0, Cell.pinf])] true
      = .ok [("x", [Cell.num q])] :=
  C6_amended [Cell.ninf, Cell.num 0, Cell.pinf] 1
    (by
      intro i h1 h2
      have h2' : i < 2 := by simpa using h2
      have h1' : i = 1 := by omega
      subst h1'
      decide)
    (by decide)

/-! ### C7: continuous bin tables -/

theorem cellLt_num_num {a b : ℚ} : cellLt (Cell.num a) (Cell.num b) = true ↔ a < b := by
  simp [cellLt]

/-- C7: for a continuous bin specification with positive `bin_size`,
`create_bins` produces `-inf`, then the arithmetic sequence
`first_bin_max + i * bin_size` for `i < arangeLen`, then `+inf`; the
sequence is strictly increasing; every interior point is strictly below
`last_bin_min` and the next term would reach it (so the interior is exactly
the arithmetic sequence strictly less than `last_bin_min`); and a malformed
range `last_bin_min ≤ first_bin_max` raises no error, producing exactly
`[-inf, +inf]`. -/
theorem C7_create_bins_continuous (f : String) (fbm lbm bs : ℚ) (hbs : 0 < bs) :
    create_bins [(f, .continuous fbm lbm bs)]
        = [(f, Cell.ninf :: ((List.range (arangeLen fbm lbm bs)).map
            (fun i : ℕ => Cell.num (fbm + (i : ℚ) * bs))) ++ [Cell.pinf])]
    ∧ List.Pairwise (fun a b => cellLt a b = true)
        (Cell.ninf :: ((List.range (arangeLen fbm lbm bs)).map
          (fun i : ℕ => Cell.num (fbm + (i : ℚ) * bs))) ++ [Cell.pinf])
    ∧ (∀ i : ℕ, i < arangeLen fbm lbm bs → fbm + (i : ℚ) * bs < lbm)
    ∧ lbm ≤ fbm + (arangeLen fbm lbm bs : ℚ) * bs
    ∧ (lbm ≤ fbm →
        create_bins [(f, .continuous fbm lbm bs)] = [(f, [Cell.ninf, Cell.pinf])]) := by
  have hbs' : bs ≠ 0 := ne_of_gt hbs
  have hlen : arangeLen fbm lbm bs = (⌈(lbm - fbm) / bs⌉).toNat := by
    rw [arangeLen, if_neg hbs']
  refine ⟨?_, ?_, ?_, ?_, ?_⟩
  · simp [create_bins, arange, List.map_map, Function.comp]
  · rw [List.cons_append, List.pairwise_cons]
    constructor
    · intro b hb
      rcases List.mem_append.mp hb with hb | hb
      · obtain ⟨i, _, rfl⟩ := List.mem_map.mp hb
        rfl
      · rw [List.mem_singleton.mp hb]
        rfl
    · rw [List.pairwise_append]
      refine ⟨?_, List.pairwise_singleton _ _, ?_⟩
      · refine List.Pairwise.map _ ?_ (List.pairwise_lt_range (arangeLen fbm lbm bs))
        intro i j hij
        rw [cellLt_num_num]
        have hij' : (i : ℚ) < (j : ℚ) := by exact_mod_cast hij
        nlinarith
      · intro a ha b hb
        obtain ⟨i, _, rfl⟩ := List.mem_map.mp ha
        rw [List.mem_singleton.mp hb]
        rfl
  · intro i hi
    rw [hlen] at hi
    have h1 : (i : ℤ) < ⌈(lbm - fbm) / bs⌉ := Int.lt_toNat.mp hi
    have h2 : (⌈(lbm - fbm) / bs⌉ : ℚ) < (lbm - fbm) / bs + 1 := Int.ceil_lt_add_one _
    have h3 : ((i : ℤ) : ℚ) + 1 ≤ (⌈(lbm - fbm) / bs⌉ : ℚ) := by
      have := Int.add_one_le_iff.mpr h1
      exact_mod_cast this
    have h4 : ((i : ℤ) : ℚ) < (lbm - fbm) / bs := by linarith
    have h5 : (i : ℚ) * bs < lbm - fbm := by
      have := (lt_div_iff₀ hbs).mp (by exact_mod_cast h4)
      exact this
    linarith
  · have h1 : (lbm - fbm) / bs ≤ (⌈(lbm - fbm) / bs⌉ : ℚ) := Int.le_ceil _
    have h2 : (⌈(lbm - fbm) / bs⌉ : ℤ) ≤ ((⌈(lbm - fbm) / bs⌉).toNat : ℤ) :=
      Int.self_le_toNat _
    have h3 : ((lbm - fbm) / bs) ≤ ((⌈(lbm - fbm) / bs⌉).toNat : ℚ) := by
      have h4 : ((⌈(lbm - fbm) / bs⌉ : ℤ) : ℚ) ≤ (((⌈(lbm - fbm) / bs⌉).toNat : ℤ) : ℚ) := by
        exact_mod_cast h2
      push_cast at h4 ⊢
      linarith
    rw [hlen]
    have h5 : lbm - fbm ≤ ((⌈(lbm - fbm) / bs⌉).toNat : ℚ) * bs := by
      have := (div_le_iff₀ hbs).mp h3
      exact this
    linarith
  · intro hml
    have hx : (lbm - fbm) / bs ≤ 0 :=
      div_nonpos_iff.mpr (Or.inr ⟨by linarith, le_of_lt hbs⟩)
    have hc : ⌈(lbm - fbm) / bs⌉ ≤ 0 := Int.ceil_le.mpr (by exact_mod_cast hx)
    have hn : arangeLen fbm lbm bs = 0 := by
      rw [hlen]
      omega
    simp [create_bins, arange, hn]

/-- C7 witness: the theorem at the concrete specification
`{first_bin_max := 0, last_bin_min := 10, bin_size := 5}`. -/
theorem C7_witness :
    (0 : ℚ) < 5
    ∧ (create_bins [("w", .continuous 0 10 5)]
          = [("w", Cell.ninf :: ((List.range (arangeLen 0 10 5)).map
              (fun i : ℕ => Cell.num (0 + (i : ℚ) * 5))) ++ [Cell.pinf])]
      ∧ List.Pairwise (fun a b => cellLt a b = true)
          (Cell.ninf :: ((List.range (arangeLen 0 10 5)).map
            (fun i : ℕ => Cell.num (0 + (i : ℚ) * 5))) ++ [Cell.pinf])
      ∧ (∀ i : ℕ, i < arangeLen 0 10 5 → 0 + (i : ℚ) * 5 < 10)
      ∧ (10 : ℚ) ≤ 0 + (arangeLen 0 10 5 : ℚ) * 5
      ∧ ((10 : ℚ) ≤ 0 →
          create_bins [("w", .continuous 0 10 5)] = [("w", [Cell.ninf, Cell.pinf])])) :=
  ⟨by norm_num, C7_create_bins_continuous "w" 0 10 5 (by norm_num)⟩

/-! ### C9: the row filter -/

theorem mem_of_mem_foldl_filter :
    ∀ (fs : List (String × List Cell)) (d : List Row) (r : Row),
      r ∈ fs.foldl (fun d p => d.filter (fun x => rowSat x p)) d → r ∈ d := by
  intro fs
  induction fs with
  | nil =>
    intro d r h
    simpa using h
  | cons p ps ih =>
    intro d r h
    simp only [List.foldl_cons] at h
    have h1 := ih (d.filter (fun x => rowSat x p)) r h
    exact (List.mem_filter.mp h1).1

theorem sat_of_mem_foldl_filter :
    ∀ (fs : List (String × List Cell)) (d : List Row) (r : Row),
      r ∈ fs.foldl (fun d p => d.filter (fun x => rowSat x p)) d →
        ∀ p ∈ fs, rowSat r p = true := by
  intro fs
  induction fs with
  | nil =>
    intro d r _ p hp
    cases hp
  | cons p ps ih =>
    intro d r h q hq
    simp only [List.foldl_cons] at h
    rcases List.mem_cons.mp hq with hq | hq
    · subst hq
      have h1 := mem_of_mem_foldl_filter ps (d.filter (fun x => rowSat x q)) r h
      exact (List.mem_filter.mp h1).2
    · exact ih _ r h q hq

/-- C9: every row surviving `df_filter` satisfies each constraint; a `none`
or empty filter list returns the input unchanged; and two constraints give
the same result applied in either order. -/
theorem C9_df_filter (data : List Row) (fs : List (String × List Cell)) :
    (∀ r ∈ df_filter data (some fs), ∀ p ∈ fs, rowSat r p = true)
    ∧ df_filter data none = data
    ∧ df_filter data (some []) = data
    ∧ ∀ p q : String × List Cell,
        df_filter data (some [p, q]) = df_filter data (some [q, p]) := by
  refine ⟨?_, rfl, rfl, ?_⟩
  · intro r hr p hp
    cases fs with
    | nil => cases hp
    | cons a as =>
      simp only [df_filter, List.isEmpty_cons, if_false, Bool.false_eq_true] at hr
      exact sat_of_mem_foldl_filter (a :: as) data r hr p hp
  · intro p q
    simp only [df_filter, List.isEmpty_cons, if_false, Bool.false_eq_true,
      List.foldl_cons, List.foldl_nil]
    exact List.filter_comm _ _ _

/-- C9 witness: the theorem at a concrete one-row table with one
constraint. -/
theorem C9_witness :
    rowSat [("a", Cell.num 1)] ("a", [Cell.num 1]) = true
    ∧ df_filter [[("a", Cell.num 1)]] none = [[("a", Cell.num 1)]] :=
  ⟨(C9_df_filter [[("a", Cell.num 1)]] [("a", [Cell.num 1])]).1
      [("a", Cell.num 1)] (by decide) ("a", [Cell.num 1]) (by decide),
    (C9_df_filter [[("a", Cell.num 1)]] [("a", [Cell.num 1])]).2.1⟩
